import Mathlib

/-!
Verification of the `rbuf` ring buffer crate.

We shallowly embed the two source variants:

* the current variant, `src/ring.rs` (buffer) together with `src/iter.rs`
  (the iterator family generated by the `iterator!` macro), and
* the old variant, `src/lib.rs`.

A `Box<[T]>` becomes a `List T`; `usize` arithmetic becomes `Nat`
arithmetic (all the `usize` values involved are bounded by the buffer
length, so no wrap-around can occur and `Nat` is faithful); `T: Default`
becomes `[Inhabited T]` with `default`; fallible slice accesses
(`get(..).unwrap()` / `get_unchecked`) become `Option`-valued lookups
via `getElem?`.
-/

namespace Rbuf

/-- The ring buffer of `src/ring.rs`: the actual data (a `Box<[T]>`,
modelled as a list), plus the index of the front element. -/
structure RingBuf (T : Type) where
  data : List T
  front : Nat
  deriving Repr, DecidableEq

namespace RingBuf

variable {T : Type}

/-- `RingBuf::len` (`src/ring.rs`): the length of the underlying data. -/
def len (b : RingBuf T) : Nat :=
  b.data.length

/-- `From<Box<[T]>> for RingBuf` (`src/ring.rs`): asserts the slice is
non-empty, then stores it with `front = 0`.  The `assert!` is modelled by
returning `none` exactly when the assertion would panic. -/
def from_boxed_slice (other : List T) : Option (RingBuf T) :=
  if other.isEmpty then none else some ⟨other, 0⟩

/-- `RingBuf::from_vec` (`src/ring.rs`): converts the vector into a boxed
slice and delegates to the `From` conversion. -/
def from_vec (vec : List T) : Option (RingBuf T) :=
  from_boxed_slice vec

/-- `RingBuf::new` (`src/ring.rs`): builds a vector of `len`
default-initialized elements and delegates to `from_vec`. -/
def new (T : Type) [Inhabited T] (n : Nat) : Option (RingBuf T) :=
  from_vec (List.replicate n (default : T))

/-- `RingBuf::front_idx` (`src/ring.rs`). -/
def front_idx (b : RingBuf T) : Nat :=
  b.front

/-- `RingBuf::back_idx` (`src/ring.rs`):
`self.front.checked_sub(1).unwrap_or(self.len() - 1)`. -/
def back_idx (b : RingBuf T) : Nat :=
  if b.front = 0 then b.len - 1 else b.front - 1

/-- `RingBuf::front` (`src/ring.rs`): `self.data.get(self.front_idx())`,
unwrapped at runtime; `none` models the (unreachable) panic. -/
def front? (b : RingBuf T) : Option T :=
  b.data[b.front_idx]?

/-- `RingBuf::back` (`src/ring.rs`): `self.data.get(self.back_idx())`,
unwrapped at runtime; `none` models the (unreachable) panic. -/
def back? (b : RingBuf T) : Option T :=
  b.data[b.back_idx]?

/-- `Index<usize> for RingBuf` (`src/ring.rs`): the logical index is
translated to `(self.front_idx() + idx) % self.len()` and then the data
slot is read; `none` models the (unreachable) out-of-bounds panic. -/
def index? (b : RingBuf T) (idx : Nat) : Option T :=
  b.data[(b.front_idx + idx) % b.len]?

/-- `RingBuf::push_front` (`src/ring.rs`): overwrite the slot at
`back_idx` with `elem` and make that slot the new front.  The write
`*self.data.get_mut(idx).unwrap() = elem` is modelled by `List.set`,
which writes exactly when the index is in bounds (in-boundedness of
`back_idx` is proved separately). -/
def push_front (b : RingBuf T) (elem : T) : RingBuf T :=
  let idx := b.back_idx
  ⟨b.data.set idx elem, idx⟩

/-- `RingBuf::push_back` (`src/ring.rs`): overwrite the slot at
`front_idx` with `elem`, then advance the front cursor by one, modulo
the length. -/
def push_back (b : RingBuf T) (elem : T) : RingBuf T :=
  ⟨b.data.set b.front_idx elem, (b.front + 1) % b.len⟩

/-- `RingBuf::pop_front` (`src/ring.rs`): read the slot at `front_idx`,
replace it with the default value (`std::mem::take`), and advance the
front cursor by one modulo the length.  `none` models the (unreachable)
panic of `self.data.get_mut(idx).unwrap()`. -/
def pop_front? [Inhabited T] (b : RingBuf T) : Option (T × RingBuf T) :=
  let idx := b.front_idx
  match b.data[idx]? with
  | some v => some (v, ⟨b.data.set idx default, (idx + 1) % b.len⟩)
  | none => none

/-- `RingBuf::pop_back` (`src/ring.rs`): read the slot at `back_idx`,
replace it with the default value (`std::mem::take`), and move the front
cursor onto that slot.  `none` models the (unreachable) panic. -/
def pop_back? [Inhabited T] (b : RingBuf T) : Option (T × RingBuf T) :=
  let idx := b.back_idx
  match b.data[idx]? with
  | some v => some (v, ⟨b.data.set idx default, idx⟩)
  | none => none

/-- `RingBuf::make_contiguous` (`src/ring.rs`):
`self.data.rotate_left(self.front); self.front = 0`.  Rust's
`rotate_left(mid)` moves the first `mid` elements to the end, which for
`mid ≤ len` agrees with Mathlib's `List.rotate` (which reduces `mid`
modulo the length first); `front < len` holds in every reachable state.
The returned `&mut [T]` view of the full storage is the `data` field of
the result. -/
def make_contiguous (b : RingBuf T) : RingBuf T :=
  ⟨b.data.rotate b.front, 0⟩

/-- Well-formedness: the cursor invariant `0 ≤ front < data.length` from
the spec (the lower bound is vacuous for `Nat`).  It implies the buffer
is non-empty. -/
def WF (b : RingBuf T) : Prop :=
  b.front < b.data.length

instance (b : RingBuf T) : Decidable b.WF := by
  unfold WF
  infer_instance

end RingBuf

/-- The cursor state of `RingIter` / `RingIterMut` (`src/iter.rs`,
`iterator!` macro): the index of the next element to yield in forward
direction and the one in backward direction.  The `buf` pointer of the
Rust struct is passed explicitly to the functions that dereference it. -/
structure RingIter where
  next : Nat
  next_back : Nat
  deriving Repr, DecidableEq

namespace RingIter

variable {T : Type}

/-- `RingIter::new` / `RingIterMut::new` (`src/iter.rs`): start at
`next = 0`, `next_back = buf.len()`. -/
def new (buf : RingBuf T) : RingIter :=
  ⟨0, buf.len⟩

/-- `Iterator::next` (`src/iter.rs`): if `next < next_back`, advance
`next` and yield the element at logical index `idx = next`; the element
actually handed out is `Index::index(rbuf, idx)`, i.e. `buf.index? idx`.
The first component is the yielded logical index (`none` when
exhausted). -/
def step_fwd (s : RingIter) : Option Nat × RingIter :=
  if s.next < s.next_back then
    (some s.next, ⟨s.next + 1, s.next_back⟩)
  else
    (none, s)

/-- `DoubleEndedIterator::next_back` (`src/iter.rs`): if
`next < next_back`, decrement `next_back` and yield the element at
logical index `next_back`; the element actually handed out is
`Index::index(rbuf, next_back)`, i.e. `buf.index? next_back`. -/
def step_bwd (s : RingIter) : Option Nat × RingIter :=
  if s.next < s.next_back then
    (some (s.next_back - 1), ⟨s.next, s.next_back - 1⟩)
  else
    (none, s)

/-- `Iterator::size_hint` (`src/iter.rs`): `(len, Some(len))` with
`len = next_back - next`. -/
def size_hint (s : RingIter) : Nat × Option Nat :=
  (s.next_back - s.next, some (s.next_back - s.next))

end RingIter

/-- A direction of one iterator step, used to describe an arbitrary
interleaving of `next` and `next_back` calls. -/
inductive Dir
  | fwd
  | bwd
  deriving Repr, DecidableEq

/-- One iterator step in the given direction. -/
def stepDir (s : RingIter) : Dir → Option Nat × RingIter
  | .fwd => s.step_fwd
  | .bwd => s.step_bwd

/-- Run an iterator through a whole interleaving of forward and backward
steps, collecting, in order, the logical indices it yields. -/
def runIter (s : RingIter) : List Dir → RingIter × List Nat
  | [] => (s, [])
  | d :: ds =>
    let r := stepDir s d
    let rest := runIter r.2 ds
    (rest.1, r.1.toList ++ rest.2)

/-- The physical slot a logical cursor value `k` is translated to by
`Index::index`/`IndexMut::index_mut`: `(front + k) % len`. -/
def physIdx (b : RingBuf T) (k : Nat) : Nat :=
  (b.front + k) % b.data.length

/-- `RingBuf::iter_mut` (`src/ring.rs`): asserts `size_of::<T>() != 0`
before constructing the iterator.  `sz` models `size_of::<T>()`, which a
shallow embedding cannot compute from `T` itself; `none` models the
panic of the failed assertion. -/
def iter_mut (sz : Nat) (b : RingBuf T) : Option RingIter :=
  if sz = 0 then none else some (RingIter.new b)

/-- A push operation, for describing arbitrary sequences of
`push_front`/`push_back` calls. -/
inductive PushOp (T : Type)
  | pushF (v : T)
  | pushB (v : T)

/-- Apply a sequence of push operations to a buffer, left to right. -/
def applyOps (b : RingBuf T) : List (PushOp T) → RingBuf T
  | [] => b
  | .pushF v :: ops => applyOps (b.push_front v) ops
  | .pushB v :: ops => applyOps (b.push_back v) ops

/-- The ring buffer of the old variant `src/lib.rs`: the data plus the
`next` write cursor (the index where the next element is written). -/
structure RingBufOld (T : Type) where
  data : List T
  next : Nat
  deriving Repr, DecidableEq

namespace RingBufOld

variable {T : Type}

/-- `RingBuf::from_vec` (`src/lib.rs`): asserts `vec.len() > 0`, then
stores the data with `next = 0`; `none` models the panic. -/
def from_vec (vec : List T) : Option (RingBufOld T) :=
  if vec.length > 0 then some ⟨vec, 0⟩ else none

/-- `RingBuf::len` (`src/lib.rs`). -/
def len (b : RingBufOld T) : Nat :=
  b.data.length

/-- `RingBuf::back_idx` (`src/lib.rs`): `self.next`. -/
def back_idx (b : RingBufOld T) : Nat :=
  b.next

/-- `Index<usize> for RingBuf` (`src/lib.rs`): the logical index is
translated to `(self.back_idx() + idx) % self.len()` — anchored at the
back (the oldest element), unlike the current variant. -/
def index? (b : RingBufOld T) (idx : Nat) : Option T :=
  b.data[(b.back_idx + idx) % b.len]?

/-- `RingBuf::push_front` (`src/lib.rs`): `self.data[next] = elem;
self.next = (next + 1) % len`. -/
def push_front (b : RingBufOld T) (elem : T) : RingBufOld T :=
  ⟨b.data.set b.next elem, (b.next + 1) % b.data.length⟩

end RingBufOld

/-! ## Helper lemmas -/

namespace RingBuf

variable {T : Type}

theorem len_pos_of_wf {b : RingBuf T} (h : b.WF) : 0 < b.data.length :=
  Nat.lt_of_le_of_lt (Nat.zero_le _) h

theorem back_idx_lt {b : RingBuf T} (h : b.WF) : b.back_idx < b.data.length := by
  unfold back_idx len
  split
  · exact Nat.sub_lt (len_pos_of_wf h) Nat.one_pos
  · exact Nat.lt_of_le_of_lt (Nat.sub_le _ _) h

/-- Advancing the cursor one past `back_idx` lands back on `front`. -/
theorem back_idx_add_one_mod {b : RingBuf T} (h : b.WF) :
    (b.back_idx + 1) % b.data.length = b.front := by
  unfold back_idx len
  rcases Nat.eq_zero_or_pos b.front with h0 | h0
  · rw [h0, if_pos rfl, Nat.sub_add_cancel (len_pos_of_wf h), Nat.mod_self]
  · rw [if_neg (Nat.pos_iff_ne_zero.mp h0), Nat.sub_add_cancel h0,
      Nat.mod_eq_of_lt h]

end RingBuf

/-- Translation to physical slots is injective on logical values below
the length (for a positive length). -/
theorem physIdx_inj {T : Type} {b : RingBuf T}
    {k₁ k₂ : Nat} (h₁ : k₁ < b.data.length) (h₂ : k₂ < b.data.length)
    (h : physIdx b k₁ = physIdx b k₂) : k₁ = k₂ := by
  unfold physIdx at h
  have hm : k₁ ≡ k₂ [MOD b.data.length] := Nat.ModEq.add_left_cancel' b.front h
  calc k₁ = k₁ % b.data.length := (Nat.mod_eq_of_lt h₁).symm
    _ = k₂ % b.data.length := hm
    _ = k₂ := Nat.mod_eq_of_lt h₂

/-- An exhausted iterator stays put and yields nothing, whatever the
direction of each further step. -/
theorem runIter_exhausted {s : RingIter} (h : s.next = s.next_back) :
    ∀ ds : List Dir, runIter s ds = (s, []) := by
  intro ds
  induction ds with
  | nil => rfl
  | cons d ds ih =>
    have hstep : stepDir s d = (none, s) := by
      cases d <;>
        simp [stepDir, RingIter.step_fwd, RingIter.step_bwd, h, Nat.lt_irrefl]
    simp [runIter, hstep, ih]

/-- Every logical index yielded along a run lies in the half-open
interval spanned by the initial cursors. -/
theorem runIter_mem {ds : List Dir} :
    ∀ {s : RingIter} {k : Nat}, k ∈ (runIter s ds).2 →
      s.next ≤ k ∧ k < s.next_back := by
  induction ds with
  | nil => intro s k hk; simp [runIter] at hk
  | cons d ds ih =>
    intro s k hk
    by_cases hlt : s.next < s.next_back
    · cases d with
      | fwd =>
        simp only [runIter, stepDir, RingIter.step_fwd, if_pos hlt,
          Option.toList_some, List.cons_append, List.nil_append,
          List.mem_cons] at hk
        rcases hk with rfl | hk
        · exact ⟨Nat.le_refl _, hlt⟩
        · have := ih hk
          exact ⟨Nat.le_of_succ_le this.1, this.2⟩
      | bwd =>
        simp only [runIter, stepDir, RingIter.step_bwd, if_pos hlt,
          Option.toList_some, List.cons_append, List.nil_append,
          List.mem_cons] at hk
        rcases hk with rfl | hk
        · exact ⟨Nat.le_sub_one_of_lt hlt, Nat.sub_lt (Nat.lt_of_le_of_lt (Nat.zero_le _) hlt) Nat.one_pos⟩
        · have := ih hk
          exact ⟨this.1, Nat.lt_of_lt_of_le this.2 (Nat.sub_le _ _)⟩
    · have heq : s.next = s.next_back := by
        have := Nat.le_of_not_lt hlt
        have h2 : s.next = s.next_back ∨ s.next_back < s.next := this.eq_or_lt.imp (fun h => h.symm) id
        rcases h2 with h2 | h2
        · exact h2
        · -- in this degenerate case the run yields nothing at all
          have hstep : stepDir s d = (none, s) := by
            cases d <;>
              simp [stepDir, RingIter.step_fwd, RingIter.step_bwd, hlt]
          simp only [runIter, hstep, Option.toList_none, List.nil_append] at hk
          exact absurd (ih hk) (by omega)
      rw [runIter_exhausted heq] at hk
      simp at hk

/-- The logical indices yielded along any run are pairwise distinct. -/
theorem runIter_nodup {ds : List Dir} : ∀ {s : RingIter}, (runIter s ds).2.Nodup := by
  induction ds with
  | nil => intro s; simp [runIter]
  | cons d ds ih =>
    intro s
    by_cases hlt : s.next < s.next_back
    · cases d with
      | fwd =>
        simp only [runIter, stepDir, RingIter.step_fwd, if_pos hlt,
          Option.toList_some, List.cons_append, List.nil_append, List.nodup_cons]
        refine ⟨fun hmem => ?_, ih⟩
        have h1 : s.next + 1 ≤ s.next := (runIter_mem hmem).1
        omega
      | bwd =>
        simp only [runIter, stepDir, RingIter.step_bwd, if_pos hlt,
          Option.toList_some, List.cons_append, List.nil_append, List.nodup_cons]
        refine ⟨fun hmem => ?_, ih⟩
        have h1 : s.next_back - 1 < s.next_back - 1 := (runIter_mem hmem).2
        omega
    · have hstep : stepDir s d = (none, s) := by
        cases d <;>
          simp [stepDir, RingIter.step_fwd, RingIter.step_bwd, hlt]
      simp only [runIter, hstep, Option.toList_none, List.nil_append]
      exact ih

/-- The physical slot a logical index below the length is sent to, under
the front-anchored translation, determines that logical index. -/
theorem phys_of_run_lt {T : Type} {b : RingBuf T} {ds : List Dir} {k : Nat}
    (hk : k ∈ (runIter (RingIter.new b) ds).2) : k < b.data.length :=
  (runIter_mem hk).2

/-! ## Claim theorems -/

/-- C1: for every ring buffer and every interleaving of forward and
backward steps of one iterator, no physical slot index is produced
twice: the list of physical indices `(front + k) % length` for the
logical cursor values `k` actually yielded is duplicate-free. -/
theorem iter_no_slot_twice {T : Type} (b : RingBuf T) (ds : List Dir) :
    ((runIter (RingIter.new b) ds).2.map (physIdx b)).Nodup := by
  refine List.Nodup.map_on ?_ runIter_nodup
  intro x hx y hy hxy
  exact physIdx_inj (phys_of_run_lt hx) (phys_of_run_lt hy) hxy

/-- C2: pushing `v` at the front and immediately popping the front
returns `v`, restores the front cursor, and leaves every physical slot
other than the one written by the push (the former back slot, which the
pop empties) exactly as it was before the push. -/
theorem push_front_pop_front {T : Type} [Inhabited T] (b : RingBuf T) (v : T)
    (h : b.WF) :
    ∃ r : T × RingBuf T, (b.push_front v).pop_front? = some r ∧
      r.1 = v ∧
      r.2.front = b.front ∧
      ∀ j : Nat, j ≠ b.back_idx → r.2.data[j]? = b.data[j]? := by
  have hidx : b.back_idx < b.data.length := RingBuf.back_idx_lt h
  have hget : (b.data.set b.back_idx v)[b.back_idx]? = some v :=
    List.getElem?_set_self (by simpa using hidx)
  have hpop : (b.push_front v).pop_front? =
      some (v, ⟨(b.data.set b.back_idx v).set b.back_idx default,
                (b.back_idx + 1) % (b.data.set b.back_idx v).length⟩) := by
    simp only [RingBuf.pop_front?, RingBuf.push_front, RingBuf.front_idx,
      RingBuf.len, hget]
  refine ⟨_, hpop, rfl, ?_, ?_⟩
  · show (b.back_idx + 1) % (b.data.set b.back_idx v).length = b.front
    rw [List.length_set]
    exact RingBuf.back_idx_add_one_mod h
  · intro j hj
    show ((b.data.set b.back_idx v).set b.back_idx default)[j]? = b.data[j]?
    rw [List.set_set, List.getElem?_set_ne (fun hh => hj hh.symm)]

/-- C2 witness. -/
theorem push_front_pop_front_witness :
    ∃ r : Nat × RingBuf Nat,
      ((RingBuf.mk [3, 4, 5, 6] 0).push_front 9).pop_front? = some r ∧
      r.1 = 9 ∧
      r.2.front = (RingBuf.mk [3, 4, 5, 6] 0).front ∧
      ∀ j : Nat, j ≠ (RingBuf.mk [3, 4, 5, 6] 0).back_idx →
        r.2.data[j]? = (RingBuf.mk [3, 4, 5, 6] 0).data[j]? :=
  push_front_pop_front (RingBuf.mk [3, 4, 5, 6] 0) 9 (by decide)

/-- C3: the two source variants are observably inequivalent.  Starting
from the contents `[3, 4, 5, 6]` and pushing `8` to the front, indexing
at logical index `0` yields `4` in the `src/lib.rs` variant (index `0`
anchored at the back/oldest element) but `8` in the `src/ring.rs`
variant (index `0` anchored at the front/most-recent element). -/
theorem variants_inequivalent :
    (RingBufOld.from_vec [3, 4, 5, 6]).map
        (fun b => (b.push_front 8).index? 0) = some (some 4) ∧
    (RingBuf.from_vec [3, 4, 5, 6]).map
        (fun b => (b.push_front 8).index? 0) = some (some 8) ∧
    some (4 : Nat) ≠ some 8 := by
  decide

/-- C4: bracket indexing is total and wraps modulo the buffer length:
index `i` reads physical slot `(front + i) % length`, `buf[i] ==
buf[i + n]`, and the access cannot fail once the length is positive. -/
theorem index_total_and_wraps {T : Type} (b : RingBuf T) (i : Nat)
    (h : 0 < b.data.length) :
    b.index? i = b.data[(b.front + i) % b.data.length]? ∧
    b.index? (i + b.len) = b.index? i ∧
    (b.index? i).isSome := by
  refine ⟨rfl, ?_, ?_⟩
  · show b.data[(b.front + (i + b.data.length)) % b.data.length]? =
      b.data[(b.front + i) % b.data.length]?
    rw [← Nat.add_assoc, Nat.add_mod_right]
  · show (b.data[(b.front + i) % b.data.length]?).isSome
    rw [List.getElem?_eq_getElem (Nat.mod_lt _ h)]
    rfl

/-- C4 witness. -/
theorem index_total_and_wraps_witness :
    (RingBuf.mk [3, 4, 5, 6] 2).index? 1 =
      (RingBuf.mk [3, 4, 5, 6] 2).data[((RingBuf.mk [3, 4, 5, 6] 2).front + 1) %
        (RingBuf.mk [3, 4, 5, 6] 2).data.length]? ∧
    (RingBuf.mk [3, 4, 5, 6] 2).index? (1 + (RingBuf.mk [3, 4, 5, 6] 2).len) =
      (RingBuf.mk [3, 4, 5, 6] 2).index? 1 ∧
    ((RingBuf.mk [3, 4, 5, 6] 2).index? 1).isSome :=
  index_total_and_wraps (RingBuf.mk [3, 4, 5, 6] 2) 1 (by decide)

/-- C6: exhaustion is sticky (the iterator is fused): whenever
`next == next_back`, both a forward step and a backward step return no
element and leave the state unchanged, and any further sequence of steps
in either direction yields nothing and keeps the state fixed. -/
theorem iter_fused (s : RingIter) (h : s.next = s.next_back) :
    s.step_fwd = (none, s) ∧ s.step_bwd = (none, s) ∧
    ∀ ds : List Dir, runIter s ds = (s, []) := by
  refine ⟨?_, ?_, runIter_exhausted h⟩ <;>
    simp [RingIter.step_fwd, RingIter.step_bwd, h, Nat.lt_irrefl]

/-- C6 witness. -/
theorem iter_fused_witness :
    (RingIter.mk 2 2).step_fwd = (none, RingIter.mk 2 2) ∧
    (RingIter.mk 2 2).step_bwd = (none, RingIter.mk 2 2) ∧
    runIter (RingIter.mk 2 2) [Dir.fwd, Dir.bwd, Dir.fwd] = (RingIter.mk 2 2, []) :=
  ⟨(iter_fused (RingIter.mk 2 2) rfl).1,
   (iter_fused (RingIter.mk 2 2) rfl).2.1,
   (iter_fused (RingIter.mk 2 2) rfl).2.2 [Dir.fwd, Dir.bwd, Dir.fwd]⟩

/-- C10: the current variant anchors indexing at the front: in every
well-formed state, `buf[0]` is the element returned by `front()` and
`buf[len() - 1]` the one returned by `back()`. -/
theorem index_zero_front_last_back {T : Type} (b : RingBuf T) (h : b.WF) :
    b.index? 0 = b.front? ∧ b.index? (b.len - 1) = b.back? := by
  constructor
  · show b.data[(b.front + 0) % b.data.length]? = b.data[b.front]?
    rw [Nat.add_zero, Nat.mod_eq_of_lt h]
  · show b.data[(b.front + (b.data.length - 1)) % b.data.length]? =
      b.data[b.back_idx]?
    congr 1
    unfold RingBuf.back_idx RingBuf.len
    rcases Nat.eq_zero_or_pos b.front with h0 | h0
    · rw [h0, if_pos rfl, Nat.zero_add,
        Nat.mod_eq_of_lt (Nat.sub_lt (RingBuf.len_pos_of_wf h) Nat.one_pos)]
    · rw [if_neg (Nat.pos_iff_ne_zero.mp h0)]
      have hwf : b.front < b.data.length := h
      have hsum : b.front + (b.data.length - 1) = (b.front - 1) + b.data.length := by
        omega
      rw [hsum, Nat.add_mod_right, Nat.mod_eq_of_lt (by omega)]

/-- Under the cursor invariant, popping the front succeeds and produces
exactly the front element together with the updated buffer. -/
theorem pop_front?_eq {T : Type} [Inhabited T] {b : RingBuf T} (h : b.WF) :
    b.pop_front? = some (b.data.get ⟨b.front, h⟩,
      ⟨b.data.set b.front default, (b.front + 1) % b.len⟩) := by
  have hf : b.data[b.front]? = some (b.data.get ⟨b.front, h⟩) := by
    rw [List.getElem?_eq_getElem h, List.get_eq_getElem]
  simp [RingBuf.pop_front?, RingBuf.front_idx, hf]

/-- Under the cursor invariant, popping the back succeeds and produces
exactly the back element together with the updated buffer. -/
theorem pop_back?_eq {T : Type} [Inhabited T] {b : RingBuf T} (h : b.WF) :
    b.pop_back? = some (b.data.get ⟨b.back_idx, RingBuf.back_idx_lt h⟩,
      ⟨b.data.set b.back_idx default, b.back_idx⟩) := by
  have hf : b.data[b.back_idx]? =
      some (b.data.get ⟨b.back_idx, RingBuf.back_idx_lt h⟩) := by
    rw [List.getElem?_eq_getElem (RingBuf.back_idx_lt h), List.get_eq_getElem]
  simp [RingBuf.pop_back?, hf]

/-- C5: there are exactly two fatal precondition violations.
Construction (`From<Box<[T]>>`, `from_vec`, `new`) fails if and only if
the input is empty; `iter_mut` fails if and only if the element size is
zero.  Every read on a well-formed buffer succeeds, and both push
operations write within bounds. -/
theorem error_handling {T : Type} [Inhabited T] (l : List T) (n sz : Nat)
    (b : RingBuf T) (i : Nat) (h : b.WF) :
    ((RingBuf.from_boxed_slice l).isSome ↔ l ≠ []) ∧
    ((RingBuf.from_vec l).isSome ↔ l ≠ []) ∧
    ((RingBuf.new T n).isSome ↔ n ≠ 0) ∧
    ((iter_mut sz b).isSome ↔ sz ≠ 0) ∧
    b.front?.isSome ∧ b.back?.isSome ∧ (b.index? i).isSome ∧
    b.pop_front?.isSome ∧ b.pop_back?.isSome ∧
    b.front_idx < b.len ∧ b.back_idx < b.len := by
  refine ⟨?_, ?_, ?_, ?_, ?_, ?_, ?_, ?_, ?_, h, RingBuf.back_idx_lt h⟩
  · unfold RingBuf.from_boxed_slice
    split <;> simp_all [List.isEmpty_iff]
  · unfold RingBuf.from_vec RingBuf.from_boxed_slice
    split <;> simp_all [List.isEmpty_iff]
  · unfold RingBuf.new RingBuf.from_vec RingBuf.from_boxed_slice
    split <;> simp_all [List.isEmpty_iff, List.replicate_eq_nil_iff]
  · unfold iter_mut
    split <;> simp_all
  · show (b.data[b.front]?).isSome
    rw [List.getElem?_eq_getElem h]
    rfl
  · show (b.data[b.back_idx]?).isSome
    rw [List.getElem?_eq_getElem (RingBuf.back_idx_lt h)]
    rfl
  · show (b.data[(b.front + i) % b.data.length]?).isSome
    rw [List.getElem?_eq_getElem (Nat.mod_lt _ (RingBuf.len_pos_of_wf h))]
    rfl
  · rw [pop_front?_eq h]
    rfl
  · rw [pop_back?_eq h]
    rfl

/-- C5 witness. -/
theorem error_handling_witness :
    ((RingBuf.from_boxed_slice [1]).isSome ↔ ([1] : List Nat) ≠ []) ∧
    ((RingBuf.from_vec [1]).isSome ↔ ([1] : List Nat) ≠ []) ∧
    ((RingBuf.new Nat 2).isSome ↔ (2 : Nat) ≠ 0) ∧
    ((iter_mut 4 (RingBuf.mk [3, 4] 1)).isSome ↔ (4 : Nat) ≠ 0) ∧
    (RingBuf.mk [3, 4] 1).front?.isSome ∧
    (RingBuf.mk [3, 4] 1).back?.isSome ∧
    ((RingBuf.mk [3, 4] 1).index? 5).isSome ∧
    (RingBuf.mk [3, 4] 1).pop_front?.isSome ∧
    (RingBuf.mk [3, 4] 1).pop_back?.isSome ∧
    (RingBuf.mk [3, 4] 1).front_idx < (RingBuf.mk [3, 4] 1).len ∧
    (RingBuf.mk [3, 4] 1).back_idx < (RingBuf.mk [3, 4] 1).len :=
  error_handling [1] 2 4 (RingBuf.mk [3, 4] 1) 5 (by decide)

/-- Forward and backward step counts of an interleaving add up to its
length. -/
theorem count_fwd_add_count_bwd (ds : List Dir) :
    ds.count Dir.fwd + ds.count Dir.bwd = ds.length := by
  induction ds with
  | nil => rfl
  | cons d ds ih =>
    cases d <;> simp [List.count_cons, ih] <;> omega

/-- Push operations never change the length of the backing storage. -/
theorem applyOps_length {T : Type} : ∀ (ops : List (PushOp T)) (b : RingBuf T),
    (applyOps b ops).data.length = b.data.length := by
  intro ops
  induction ops with
  | nil => intro b; rfl
  | cons op ops ih =>
    intro b
    cases op with
    | pushF v =>
      rw [show applyOps b (.pushF v :: ops) = applyOps (b.push_front v) ops from rfl,
        ih]
      exact List.length_set ..
    | pushB v =>
      rw [show applyOps b (.pushB v :: ops) = applyOps (b.push_back v) ops from rfl,
        ih]
      exact List.length_set ..

/-- Each iterator step closes the cursor gap by exactly one, so a run
whose length fits into the initial gap leaves a gap smaller by the run's
length. -/
theorem runIter_gap : ∀ (ds : List Dir) (s : RingIter), s.next ≤ s.next_back →
    ds.length ≤ s.next_back - s.next →
    (runIter s ds).1.next_back - (runIter s ds).1.next =
      s.next_back - s.next - ds.length := by
  intro ds
  induction ds with
  | nil =>
    intro s h hle
    simp [runIter]
  | cons d ds ih =>
    intro s h hle
    rw [List.length_cons] at hle
    have hlt : s.next < s.next_back := by omega
    cases d with
    | fwd =>
      simp only [runIter, stepDir, RingIter.step_fwd, if_pos hlt, List.length_cons]
      have hred : (runIter ⟨s.next + 1, s.next_back⟩ ds).1.next_back -
          (runIter ⟨s.next + 1, s.next_back⟩ ds).1.next =
          s.next_back - (s.next + 1) - ds.length :=
        ih ⟨s.next + 1, s.next_back⟩ hlt (by omega : ds.length ≤ s.next_back - (s.next + 1))
      rw [hred]
      omega
    | bwd =>
      simp only [runIter, stepDir, RingIter.step_bwd, if_pos hlt, List.length_cons]
      have hred : (runIter ⟨s.next, s.next_back - 1⟩ ds).1.next_back -
          (runIter ⟨s.next, s.next_back - 1⟩ ds).1.next =
          s.next_back - 1 - s.next - ds.length :=
        ih ⟨s.next, s.next_back - 1⟩ (by omega : s.next ≤ s.next_back - 1)
          (by omega : ds.length ≤ s.next_back - 1 - s.next)
      rw [hred]
      omega

/-- C7: size reporting is exact at every state.  A fresh iterator over a
buffer that underwent any sequence of pushes reports exactly the
original length, and after any interleaving of `f` forward and `b`
backward steps with `f + b ≤ length` the size hint is exactly
`(length - f - b, Some (length - f - b))`, i.e. `next_back - next`. -/
theorem size_hint_exact {T : Type} (b : RingBuf T) (ops : List (PushOp T))
    (ds : List Dir) (h : ds.count Dir.fwd + ds.count Dir.bwd ≤ b.len) :
    (RingIter.new (applyOps b ops)).size_hint = (b.len, some b.len) ∧
    (runIter (RingIter.new (applyOps b ops)) ds).1.size_hint =
      (b.len - (ds.count Dir.fwd + ds.count Dir.bwd),
       some (b.len - (ds.count Dir.fwd + ds.count Dir.bwd))) := by
  have hlen : (applyOps b ops).data.length = b.data.length := applyOps_length ops b
  constructor
  · simp [RingIter.new, RingIter.size_hint, RingBuf.len, hlen]
  · have h2 : ds.length ≤ b.data.length := by
      rw [count_fwd_add_count_bwd ds] at h
      exact h
    have hgap := runIter_gap ds (RingIter.new (applyOps b ops))
      (Nat.zero_le _)
      (by
        show ds.length ≤ (applyOps b ops).data.length - 0
        omega)
    rw [count_fwd_add_count_bwd ds]
    have hnew : (RingIter.new (applyOps b ops)).next_back -
        (RingIter.new (applyOps b ops)).next - ds.length =
        b.len - ds.length := by
      show (applyOps b ops).data.length - 0 - ds.length = b.data.length - ds.length
      rw [hlen]
      omega
    rw [RingIter.size_hint, hgap, hnew]

/-- C7 witness. -/
theorem size_hint_exact_witness :
    (RingIter.new (applyOps (RingBuf.mk [3, 4, 5, 6] 0) [PushOp.pushF 7, PushOp.pushB 9])).size_hint =
      ((RingBuf.mk [3, 4, 5, 6] 0).len, some (RingBuf.mk [3, 4, 5, 6] 0).len) ∧
    (runIter (RingIter.new (applyOps (RingBuf.mk [3, 4, 5, 6] 0) [PushOp.pushF 7, PushOp.pushB 9]))
        [Dir.fwd, Dir.bwd, Dir.fwd]).1.size_hint =
      ((RingBuf.mk [3, 4, 5, 6] 0).len -
         ([Dir.fwd, Dir.bwd, Dir.fwd].count Dir.fwd + [Dir.fwd, Dir.bwd, Dir.fwd].count Dir.bwd),
       some ((RingBuf.mk [3, 4, 5, 6] 0).len -
         ([Dir.fwd, Dir.bwd, Dir.fwd].count Dir.fwd + [Dir.fwd, Dir.bwd, Dir.fwd].count Dir.bwd))) :=
  size_hint_exact (RingBuf.mk [3, 4, 5, 6] 0) [PushOp.pushF 7, PushOp.pushB 9]
    [Dir.fwd, Dir.bwd, Dir.fwd] (by decide)

/-- C8: the cursor invariant `front < data.length` holds after
construction and is preserved by every operation, and the length of the
backing storage never changes after construction. -/
theorem cursor_invariant {T : Type} [Inhabited T] (l : List T) (b : RingBuf T)
    (v : T) (h : b.WF) :
    (∀ b0 : RingBuf T, RingBuf.from_boxed_slice l = some b0 → b0.WF) ∧
    ((b.push_front v).WF ∧ (b.push_front v).data.length = b.data.length) ∧
    ((b.push_back v).WF ∧ (b.push_back v).data.length = b.data.length) ∧
    (∀ r : T × RingBuf T, b.pop_front? = some r →
      r.2.WF ∧ r.2.data.length = b.data.length) ∧
    (∀ r : T × RingBuf T, b.pop_back? = some r →
      r.2.WF ∧ r.2.data.length = b.data.length) ∧
    (b.make_contiguous.WF ∧ b.make_contiguous.data.length = b.data.length) := by
  refine ⟨?_, ⟨?_, ?_⟩, ⟨?_, ?_⟩, ?_, ?_, ⟨?_, ?_⟩⟩
  · intro b0 hb0
    unfold RingBuf.from_boxed_slice at hb0
    split at hb0
    · exact absurd hb0 (by simp)
    · obtain rfl := Option.some.inj hb0
      show 0 < l.length
      have : ¬ l.isEmpty := by assumption
      simp only [List.isEmpty_iff] at this
      exact List.length_pos.mpr this
  · show b.back_idx < (b.data.set b.back_idx v).length
    rw [List.length_set]
    exact RingBuf.back_idx_lt h
  · exact List.length_set ..
  · show (b.front + 1) % b.len < (b.data.set b.front_idx v).length
    rw [List.length_set]
    exact Nat.mod_lt _ (RingBuf.len_pos_of_wf h)
  · exact List.length_set ..
  · intro r hr
    rw [pop_front?_eq h] at hr
    obtain rfl := Option.some.inj hr
    constructor
    · show (b.front + 1) % b.len < (b.data.set b.front default).length
      rw [List.length_set]
      exact Nat.mod_lt _ (RingBuf.len_pos_of_wf h)
    · exact List.length_set ..
  · intro r hr
    rw [pop_back?_eq h] at hr
    obtain rfl := Option.some.inj hr
    constructor
    · show b.back_idx < (b.data.set b.back_idx default).length
      rw [List.length_set]
      exact RingBuf.back_idx_lt h
    · exact List.length_set ..
  · show 0 < (b.data.rotate b.front).length
    rw [List.length_rotate]
    exact RingBuf.len_pos_of_wf h
  · exact List.length_rotate ..

/-- C8 witness. -/
theorem cursor_invariant_witness :
    (∀ b0 : RingBuf Nat, RingBuf.from_boxed_slice [1, 2] = some b0 → b0.WF) ∧
    (((RingBuf.mk [3, 4, 5] 1).push_front 7).WF ∧
      ((RingBuf.mk [3, 4, 5] 1).push_front 7).data.length =
        (RingBuf.mk [3, 4, 5] 1).data.length) ∧
    (((RingBuf.mk [3, 4, 5] 1).push_back 7).WF ∧
      ((RingBuf.mk [3, 4, 5] 1).push_back 7).data.length =
        (RingBuf.mk [3, 4, 5] 1).data.length) ∧
    (∀ r : Nat × RingBuf Nat, (RingBuf.mk [3, 4, 5] 1).pop_front? = some r →
      r.2.WF ∧ r.2.data.length = (RingBuf.mk [3, 4, 5] 1).data.length) ∧
    (∀ r : Nat × RingBuf Nat, (RingBuf.mk [3, 4, 5] 1).pop_back? = some r →
      r.2.WF ∧ r.2.data.length = (RingBuf.mk [3, 4, 5] 1).data.length) ∧
    ((RingBuf.mk [3, 4, 5] 1).make_contiguous.WF ∧
      (RingBuf.mk [3, 4, 5] 1).make_contiguous.data.length =
        (RingBuf.mk [3, 4, 5] 1).data.length) :=
  cursor_invariant [1, 2] (RingBuf.mk [3, 4, 5] 1) 7 (by decide)

/-- C9: `make_contiguous` moves the logical front to physical index `0`,
preserves the buffer's logical contents at every index, and its full
backing storage, read in physical order, lists the elements in logical
front-to-back order. -/
theorem make_contiguous_correct {T : Type} (b : RingBuf T) (i : Nat) (h : b.WF) :
    b.make_contiguous.front = 0 ∧
    b.make_contiguous.index? i = b.index? i ∧
    (i < b.len → b.make_contiguous.data[i]? = b.index? i) ∧
    b.make_contiguous.data[0]? = b.front? := by
  have hlen : 0 < b.data.length := RingBuf.len_pos_of_wf h
  refine ⟨rfl, ?_, ?_, ?_⟩
  · show (b.data.rotate b.front)[(0 + i) % (b.data.rotate b.front).length]? =
      b.data[(b.front + i) % b.data.length]?
    rw [Nat.zero_add, List.length_rotate,
      List.getElem?_rotate (Nat.mod_lt _ hlen)]
    congr 1
    calc (i % b.data.length + b.front) % b.data.length
        = (b.front + i % b.data.length) % b.data.length := by rw [Nat.add_comm]
      _ = (b.front + i) % b.data.length :=
          Nat.ModEq.add_left b.front (Nat.mod_modEq i b.data.length)
  · intro hi
    show (b.data.rotate b.front)[i]? = b.data[(b.front + i) % b.data.length]?
    rw [List.getElem?_rotate hi]
    congr 1
    rw [Nat.add_comm]
  · show (b.data.rotate b.front)[0]? = b.data[b.front]?
    rw [List.getElem?_rotate hlen]
    congr 1
    rw [Nat.zero_add, Nat.mod_eq_of_lt h]

/-- C9 witness. -/
theorem make_contiguous_correct_witness :
    (RingBuf.mk [3, 4, 5, 6] 2).make_contiguous.front = 0 ∧
    (RingBuf.mk [3, 4, 5, 6] 2).make_contiguous.index? 1 =
      (RingBuf.mk [3, 4, 5, 6] 2).index? 1 ∧
    (1 < (RingBuf.mk [3, 4, 5, 6] 2).len →
      (RingBuf.mk [3, 4, 5, 6] 2).make_contiguous.data[1]? =
        (RingBuf.mk [3, 4, 5, 6] 2).index? 1) ∧
    (RingBuf.mk [3, 4, 5, 6] 2).make_contiguous.data[0]? =
      (RingBuf.mk [3, 4, 5, 6] 2).front? :=
  make_contiguous_correct (RingBuf.mk [3, 4, 5, 6] 2) 1 (by decide)

/-- C10 witness. -/
theorem index_zero_front_last_back_witness :
    (RingBuf.mk [3, 4, 5, 6] 2).index? 0 = (RingBuf.mk [3, 4, 5, 6] 2).front? ∧
    (RingBuf.mk [3, 4, 5, 6] 2).index? ((RingBuf.mk [3, 4, 5, 6] 2).len - 1) =
      (RingBuf.mk [3, 4, 5, 6] 2).back? :=
  index_zero_front_last_back (RingBuf.mk [3, 4, 5, 6] 2) (by decide)

end Rbuf
